import Mathlib

/-!
Verification of the SurahKit caching and query module (src/surahkit.js).

The module keeps a process-wide `cache : Map` from a normalized language key
to either an in-flight fetch promise or the resolved dataset.  We embed the
promise machinery as a small state machine: each `loadAll` invocation runs
synchronously up to (and including) issuing the fetch and storing the pending
promise in the cache, so one `call` event models that whole synchronous block;
`fetchOk` / `fetchFail` model the continuation that runs when the fetch
settles (`cache.set(key, data)` on success, `cache.delete(key)` on failure);
`clear` models `clearCache()`.  The pure search helpers (`searchById`,
`searchByIds`, `searchByName`, `searchByPhrase`) are embedded as functions of
the resolved partition, with a flag recording whether execution reached the
`await this.loadAll(...)` line.
-/

namespace SurahKit

/-- One dataset entry, as documented by the `SurahItem` typedef in the source:
`id`, `surah` (title), `verses` (count), `text` (body). -/
structure Record where
  id : String
  surah : String
  verses : String
  text : String
deriving DecidableEq, Repr

/-- A JavaScript value that may be passed where the API accepts
`string | number` (plus `null` for an absent argument). -/
inductive JSValue where
  | str (s : String)
  | num (n : Int)
  | null
deriving DecidableEq, Repr

/-- JavaScript falsiness of a `string | number | null` value, as tested by
`if (!id)`: the empty string, the number `0` and `null` are falsy. -/
def jsFalsy : JSValue → Bool
  | .str s => s == ""
  | .num n => n == 0
  | .null => true

/-- `String(v)` for a `string | number | null` value. -/
def jsToString : JSValue → String
  | .str s => s
  | .num n => toString n
  | .null => "null"

/-- JavaScript falsiness of an optional string argument, as tested by
`if (!language)`: absent (`undefined`/`null`) or the empty string. -/
def jsFalsyStr : Option String → Bool
  | none => true
  | some s => s == ""

/-- `s.toLowerCase()`. -/
def jsToLower (s : String) : String := ⟨s.data.map Char.toLower⟩

/-- `s.trim()`: remove whitespace from both ends. -/
def jsTrim (s : String) : String :=
  ⟨((s.data.dropWhile Char.isWhitespace).reverse.dropWhile Char.isWhitespace).reverse⟩

/-- `language.trim().toLowerCase()` — the normalized cache key `safeLanguage`
computed by `loadAll`. -/
def normKey (s : String) : String := jsToLower (jsTrim s)

/-- A cache value: either the pending fetch promise (identified by the id of
the in-flight fetch) or the resolved dataset. -/
inductive CacheVal where
  | pending (pid : Nat)
  | resolved (data : List Record)
deriving DecidableEq, Repr

/-- `Map.prototype.get`: first binding of the key in an association list. -/
def mapGet {κ α : Type} [DecidableEq κ] (m : List (κ × α)) (k : κ) : Option α :=
  match m with
  | [] => none
  | (k₀, v) :: rest => if k₀ = k then some v else mapGet rest k

/-- `Map.prototype.set`: replace the binding of the key if present, else
append a new binding. -/
def mapSet {κ α : Type} [DecidableEq κ] (m : List (κ × α)) (k : κ) (v : α) :
    List (κ × α) :=
  match m with
  | [] => [(k, v)]
  | (k₀, v₀) :: rest => if k₀ = k then (k, v) :: rest else (k₀, v₀) :: mapSet rest k v

/-- `Map.prototype.delete`: remove the binding of the key. -/
def mapDelete {κ α : Type} [DecidableEq κ] (m : List (κ × α)) (k : κ) :
    List (κ × α) :=
  match m with
  | [] => []
  | (k₀, v₀) :: rest => if k₀ = k then rest else (k₀, v₀) :: mapDelete rest k

/-- The observable outcome of one `loadAll` caller. -/
inductive Caller where
  | failedInput
  | waiting (key : String) (pid : Nat)
  | gotData (key : String) (data : List Record)
  | gotError (key : String)
deriving DecidableEq, Repr

/-- The state of the module: the shared cache map, the set of in-flight
fetches (pid ↦ key), the next fresh fetch id, the log of issued fetches
(by key) and the outcome of every `loadAll` caller so far. -/
structure SKState where
  cache : List (String × CacheVal)
  inflight : List (Nat × String)
  nextPid : Nat
  fetchLog : List String
  callers : List Caller
deriving DecidableEq, Repr

/-- The initial state: empty cache, no fetches, no callers. -/
def initState : SKState := ⟨[], [], 0, [], []⟩

/-- An atomic event of the cooperative (single-threaded) execution:
a `loadAll(language)` invocation up to its first suspension point, the
settlement of an in-flight fetch, or a `clearCache()` call. -/
inductive Event where
  | call (language : Option String)
  | fetchOk (pid : Nat) (data : List Record)
  | fetchFail (pid : Nat)
  | clear
deriving DecidableEq, Repr

/-- The effect of the success continuation of fetch `pid` on one caller:
a caller awaiting that promise resolves to the fetched data. -/
def resolveCaller (pid : Nat) (d : List Record) : Caller → Caller
  | .waiting k p => if p = pid then .gotData k d else .waiting k p
  | c => c

/-- The effect of the failure continuation of fetch `pid` on one caller:
a caller awaiting that promise rejects with the retrieval error. -/
def rejectCaller (pid : Nat) : Caller → Caller
  | .waiting k p => if p = pid then .gotError k else .waiting k p
  | c => c

/-- One step of execution, transcribing `loadAll` / `clearCache`:

* `call language` — the synchronous prefix of `loadAll`: throw if
  `!language`; compute `safeLanguage`; if the cache has the key return the
  cached promise or data; otherwise start a fetch and store the pending
  promise in the cache before returning (the `cache.set` happens in the
  same synchronous block as the fetch is issued, so it is one step).
* `fetchOk pid data` — the success continuation: `cache.set(key, data)`
  (unconditional) and every caller awaiting that promise resolves to `data`.
* `fetchFail pid` — the catch block: `cache.delete(key)` and every caller
  awaiting that promise rejects.
* `clear` — `clearCache()`: `cache.clear()`. -/
def step (s : SKState) : Event → SKState
  | .call language =>
    if jsFalsyStr language then
      { s with callers := s.callers ++ [.failedInput] }
    else
      let k := normKey (language.getD "")
      match mapGet s.cache k with
      | some (.resolved d) => { s with callers := s.callers ++ [.gotData k d] }
      | some (.pending pid) => { s with callers := s.callers ++ [.waiting k pid] }
      | none =>
        { cache := mapSet s.cache k (.pending s.nextPid)
          inflight := s.inflight ++ [(s.nextPid, k)]
          nextPid := s.nextPid + 1
          fetchLog := s.fetchLog ++ [k]
          callers := s.callers ++ [.waiting k s.nextPid] }
  | .fetchOk pid d =>
    match mapGet s.inflight pid with
    | none => s
    | some k =>
      { s with
        cache := mapSet s.cache k (.resolved d)
        inflight := mapDelete s.inflight pid
        callers := s.callers.map (resolveCaller pid d) }
  | .fetchFail pid =>
    match mapGet s.inflight pid with
    | none => s
    | some k =>
      { s with
        cache := mapDelete s.cache k
        inflight := mapDelete s.inflight pid
        callers := s.callers.map (rejectCaller pid) }
  | .clear => { s with cache := [] }

/-- Run a trace of events from the initial state. -/
def run (tr : List Event) : SKState := tr.foldl step initState

/-- An event that is neither a fetch failure nor a cache clear; a trace of
benign events is a failure-free window. -/
def benign : Event → Bool
  | .fetchFail _ => false
  | .clear => false
  | _ => true

/-- A failure-free window: no fetch fails and the cache is not cleared. -/
def FailureFree (tr : List Event) : Prop := ∀ e ∈ tr, benign e = true

instance : DecidablePred FailureFree := fun tr =>
  List.decidableBAll (fun e => benign e = true) tr

/-- The errors thrown by the module: the required-argument errors, the fetch
error (key and status detail elided into the constructor), and the
`Surah with ID ... not found in ...` error carrying the raw id and language. -/
inductive SKError where
  | invalidInput (msg : String)
  | retrieval
  | notFound (id : String) (language : String)
deriving DecidableEq, Repr

/-- The result of a query operation together with a flag recording whether
execution reached the `await this.loadAll(language)` line (and hence touched
the cache / possibly the network). -/
structure Traced (α : Type) where
  val : α
  touchedCache : Bool
deriving DecidableEq, Repr

/-- `Array.prototype.find`: first element satisfying the predicate. -/
def jsFind {α : Type} (p : α → Bool) : List α → Option α
  | [] => none
  | x :: xs => if p x then some x else jsFind p xs

/-- `Array.prototype.filter`: all elements satisfying the predicate, in
order. -/
def jsFilter {α : Type} (p : α → Bool) : List α → List α
  | [] => []
  | x :: xs => if p x then x :: jsFilter p xs else jsFilter p xs

/-- `hay.includes(needle)` on lists of characters: some contiguous run of
`hay` equals `needle`. -/
def listIncludes (hay needle : List Char) : Bool :=
  match hay with
  | [] => needle.isEmpty
  | _ :: t => needle.isPrefixOf hay || listIncludes t needle

/-- `hay.includes(needle)` on strings. -/
def strIncludes (hay needle : String) : Bool := listIncludes hay.data needle.data

/-- `searchById`, given the partition `loadAll` would resolve to: reject a
falsy `id` before loading; otherwise scan for the first record whose `id`
equals `String(id).trim()`, else a not-found error carrying the raw id. -/
def searchByIdRun (quran : List Record) (language : String) (id : JSValue) :
    Traced (Except SKError Record) :=
  if jsFalsy id then ⟨.error (.invalidInput "Surah ID is required."), false⟩
  else
    let surahId := jsTrim (jsToString id)
    match jsFind (fun s => s.id == surahId) quran with
    | some s => ⟨.ok s, true⟩
    | none => ⟨.error (.notFound (jsToString id) language), true⟩

/-- `searchByIds`, given the partition `loadAll` would resolve to: an absent
or empty `ids` array short-circuits to `[]` before loading; otherwise keep
the records whose `id` is among the trimmed string forms of the inputs. -/
def searchByIdsRun (quran : List Record) (ids : Option (List JSValue)) :
    Traced (List Record) :=
  match ids with
  | none => ⟨[], false⟩
  | some l =>
    if l.length = 0 then ⟨[], false⟩
    else
      let idSet := l.map fun id => jsTrim (jsToString id)
      ⟨jsFilter (fun s => idSet.contains s.id) quran, true⟩

/-- `searchByName`, given the partition `loadAll` would resolve to: an absent
(`undefined`/`null`) or empty keyword is falsy, so `if (!keyword)`
short-circuits to `[]` before loading; otherwise keep the records whose
lower-cased `surah` (title) contains the lower-cased keyword. -/
def searchByNameRun (quran : List Record) (keyword : Option String) :
    Traced (List Record) :=
  if jsFalsyStr keyword then ⟨[], false⟩
  else
    let term := jsToLower (keyword.getD "")
    ⟨jsFilter (fun s => strIncludes (jsToLower s.surah) term) quran, true⟩

/-- `searchByPhrase`, given the partition `loadAll` would resolve to: same as
`searchByNameRun` but matching against `text` (body). -/
def searchByPhraseRun (quran : List Record) (phrase : Option String) :
    Traced (List Record) :=
  if jsFalsyStr phrase then ⟨[], false⟩
  else
    let term := jsToLower (phrase.getD "")
    ⟨jsFilter (fun s => strIncludes (jsToLower s.text) term) quran, true⟩

/-- The weak invariant, preserved by every event including failures and
clears: map keys are distinct and in-flight fetch ids are below the fresh
counter. -/
structure WInv (s : SKState) : Prop where
  cache_nodup : (s.cache.map Prod.fst).Nodup
  inflight_nodup : (s.inflight.map Prod.fst).Nodup
  pid_lt : ∀ p ∈ s.inflight.map Prod.fst, p < s.nextPid

/-- The record of Surah 1 used in concrete test partitions. -/
def opener : Record := ⟨"1", "The Opener", "7", "all praise is due to God"⟩

/-- The record of Surah 36 used in concrete test partitions. -/
def yaSin : Record := ⟨"36", "Ya-Sin", "83", "a revelation of the mighty"⟩

/-- The record of Surah 114 used in concrete test partitions. -/
def mankind : Record := ⟨"114", "Mankind", "6", "say I seek refuge"⟩

/-- A small resolved partition used by the concrete witnesses. -/
def demoQuran : List Record := [opener, yaSin, mankind]

/-- The inductive invariant of failure-free, clear-free executions: cache and
in-flight bookkeeping agree, each key is fetched at most once, and caller
outcomes agree with the cache. -/
structure Inv (s : SKState) : Prop where
  cache_nodup : (s.cache.map Prod.fst).Nodup
  inflight_nodup : (s.inflight.map Prod.fst).Nodup
  pid_lt : ∀ p ∈ s.inflight.map Prod.fst, p < s.nextPid
  inflight_cache : ∀ pid k, mapGet s.inflight pid = some k →
    mapGet s.cache k = some (.pending pid)
  cache_inflight : ∀ k pid, mapGet s.cache k = some (.pending pid) →
    mapGet s.inflight pid = some k
  log_count : ∀ k, s.fetchLog.count k ≤ 1
  log_cache : ∀ k, k ∈ s.fetchLog ↔ (mapGet s.cache k).isSome = true
  waiting_inflight : ∀ k pid, Caller.waiting k pid ∈ s.callers →
    mapGet s.inflight pid = some k
  data_cache : ∀ k d, Caller.gotData k d ∈ s.callers →
    mapGet s.cache k = some (.resolved d)

section MapLemmas

variable {κ α : Type} [DecidableEq κ]

theorem mapGet_mapSet (m : List (κ × α)) (k : κ) (v : α) (q : κ) :
    mapGet (mapSet m k v) q = if k = q then some v else mapGet m q := by
  induction m with
  | nil =>
    by_cases h : k = q <;> simp [mapSet, mapGet, h]
  | cons hd tl ih =>
    obtain ⟨k₀, v₀⟩ := hd
    by_cases h₀ : k₀ = k
    · subst h₀
      by_cases h : k₀ = q <;> simp [mapSet, mapGet, h]
    · by_cases h : k₀ = q
      · subst h
        have hk : ¬ k = k₀ := fun hh => h₀ hh.symm
        simp [mapSet, mapGet, h₀, hk]
      · simp [mapSet, mapGet, h₀, h, ih]

theorem mapGet_mapDelete_ne (m : List (κ × α)) (k q : κ) (hq : q ≠ k) :
    mapGet (mapDelete m k) q = mapGet m q := by
  induction m with
  | nil => simp [mapDelete]
  | cons hd tl ih =>
    obtain ⟨k₀, v₀⟩ := hd
    by_cases h₀ : k₀ = k
    · subst h₀
      have h1 : ¬ k₀ = q := fun hh => hq hh.symm
      simp [mapDelete, mapGet, h1]
    · simp only [mapDelete, if_neg h₀, mapGet]
      by_cases h : k₀ = q
      · simp [h]
      · simp [h, ih]

theorem mapGet_eq_none_iff (m : List (κ × α)) (q : κ) :
    mapGet m q = none ↔ q ∉ m.map Prod.fst := by
  induction m with
  | nil => simp [mapGet]
  | cons hd tl ih =>
    obtain ⟨k₀, v₀⟩ := hd
    by_cases h : k₀ = q
    · subst h
      simp [mapGet]
    · have h' : ¬ q = k₀ := fun hh => h hh.symm
      simp [mapGet, h, h', ih]

theorem mapGet_isSome_iff (m : List (κ × α)) (q : κ) :
    (mapGet m q).isSome = true ↔ q ∈ m.map Prod.fst := by
  rw [← Decidable.not_iff_not, ← mapGet_eq_none_iff m q]
  cases mapGet m q <;> simp

theorem mapGet_mapDelete_self (m : List (κ × α)) (k : κ)
    (h : (m.map Prod.fst).Nodup) : mapGet (mapDelete m k) k = none := by
  induction m with
  | nil => simp [mapDelete, mapGet]
  | cons hd tl ih =>
    obtain ⟨k₀, v₀⟩ := hd
    simp only [List.map_cons, List.nodup_cons] at h
    by_cases h₀ : k₀ = k
    · subst h₀
      have hdel : mapDelete ((k₀, v₀) :: tl) k₀ = tl := by simp [mapDelete]
      rw [hdel]
      exact (mapGet_eq_none_iff tl k₀).mpr h.1
    · simp [mapDelete, mapGet, h₀, ih h.2]

theorem mapDelete_keys_sublist (m : List (κ × α)) (k : κ) :
    ((mapDelete m k).map Prod.fst).Sublist (m.map Prod.fst) := by
  induction m with
  | nil => simp [mapDelete]
  | cons hd tl ih =>
    obtain ⟨k₀, v₀⟩ := hd
    by_cases h₀ : k₀ = k
    · simp only [mapDelete, h₀, if_pos rfl, List.map_cons]
      exact (List.sublist_cons_self _ _)
    · simpa [mapDelete, h₀] using ih.cons₂ k₀

theorem mapDelete_keys_nodup (m : List (κ × α)) (k : κ)
    (h : (m.map Prod.fst).Nodup) : ((mapDelete m k).map Prod.fst).Nodup :=
  (mapDelete_keys_sublist m k).nodup h

theorem mem_keys_mapSet (m : List (κ × α)) (k : κ) (v : α) (q : κ)
    (h : q ∈ (mapSet m k v).map Prod.fst) : q ∈ m.map Prod.fst ∨ q = k := by
  induction m with
  | nil =>
    simp [mapSet] at h
    exact Or.inr h
  | cons hd tl ih =>
    obtain ⟨k₀, v₀⟩ := hd
    by_cases h₀ : k₀ = k
    · subst h₀
      have hset : mapSet ((k₀, v₀) :: tl) k₀ v = (k₀, v) :: tl := by simp [mapSet]
      rw [hset] at h
      simp only [List.map_cons, List.mem_cons] at h
      simp only [List.map_cons, List.mem_cons]
      rcases h with h | h
      · exact Or.inr h
      · exact Or.inl (Or.inr h)
    · simp only [mapSet, if_neg h₀, List.map_cons, List.mem_cons] at h
      simp only [List.map_cons, List.mem_cons]
      rcases h with h | h
      · exact Or.inl (Or.inl h)
      · rcases ih h with h' | h'
        · exact Or.inl (Or.inr h')
        · exact Or.inr h'

theorem mapSet_keys_nodup (m : List (κ × α)) (k : κ) (v : α)
    (h : (m.map Prod.fst).Nodup) : ((mapSet m k v).map Prod.fst).Nodup := by
  induction m with
  | nil => simp [mapSet]
  | cons hd tl ih =>
    obtain ⟨k₀, v₀⟩ := hd
    simp only [List.map_cons, List.nodup_cons] at h
    by_cases h₀ : k₀ = k
    · subst h₀
      have hset : mapSet ((k₀, v₀) :: tl) k₀ v = (k₀, v) :: tl := by simp [mapSet]
      rw [hset]
      simp only [List.map_cons, List.nodup_cons]
      exact h
    · simp only [mapSet, if_neg h₀, List.map_cons, List.nodup_cons]
      refine ⟨fun hmem => ?_, ih h.2⟩
      rcases mem_keys_mapSet tl k v k₀ hmem with h' | h'
      · exact h.1 h'
      · exact h₀ h'

theorem mapGet_append_some (m₁ m₂ : List (κ × α)) (q : κ) (v : α)
    (h : mapGet m₁ q = some v) : mapGet (m₁ ++ m₂) q = some v := by
  induction m₁ with
  | nil => simp [mapGet] at h
  | cons hd tl ih =>
    obtain ⟨k₀, v₀⟩ := hd
    by_cases h₀ : k₀ = q <;> simp_all [mapGet]

theorem mapGet_append_none (m₁ m₂ : List (κ × α)) (q : κ)
    (h : mapGet m₁ q = none) : mapGet (m₁ ++ m₂) q = mapGet m₂ q := by
  induction m₁ with
  | nil => simp [mapGet]
  | cons hd tl ih =>
    obtain ⟨k₀, v₀⟩ := hd
    by_cases h₀ : k₀ = q <;> simp_all [mapGet]

theorem mapGet_mem (m : List (κ × α)) (q : κ) (v : α)
    (h : mapGet m q = some v) : (q, v) ∈ m := by
  induction m with
  | nil => simp [mapGet] at h
  | cons hd tl ih =>
    obtain ⟨k₀, v₀⟩ := hd
    by_cases h₀ : k₀ = q
    · subst h₀
      simp [mapGet] at h
      simp [h]
    · simp only [mapGet, if_neg h₀] at h
      exact List.mem_cons_of_mem _ (ih h)

end MapLemmas

theorem inv_initState : Inv initState := by
  constructor <;> simp [initState, mapGet]

theorem inv_step_call (s : SKState) (language : Option String) (hs : Inv s) :
    Inv (step s (.call language)) := by
  by_cases hf : jsFalsyStr language = true
  · simp only [step, if_pos hf]
    refine ⟨hs.cache_nodup, hs.inflight_nodup, hs.pid_lt, hs.inflight_cache,
      hs.cache_inflight, hs.log_count, hs.log_cache, ?_, ?_⟩
    · intro k pid hmem
      simp only [List.mem_append, List.mem_singleton] at hmem
      rcases hmem with hmem | hmem
      · exact hs.waiting_inflight k pid hmem
      · exact absurd hmem (by simp)
    · intro k d hmem
      simp only [List.mem_append, List.mem_singleton] at hmem
      rcases hmem with hmem | hmem
      · exact hs.data_cache k d hmem
      · exact absurd hmem (by simp)
  · simp only [step, if_neg hf]
    rcases hm : mapGet s.cache (normKey (language.getD "")) with _ | val
    · -- cache miss: a fetch is started and registered
      simp only [hm]
      have hknotin : normKey (language.getD "") ∉ s.cache.map Prod.fst :=
        (mapGet_eq_none_iff _ _).mp hm
      have hfresh : mapGet s.inflight s.nextPid = none := by
        rcases hg : mapGet s.inflight s.nextPid with _ | k₀
        · rfl
        · have hmem : s.nextPid ∈ s.inflight.map Prod.fst := by
            have := mapGet_mem _ _ _ hg
            exact List.mem_map.mpr ⟨(s.nextPid, k₀), this, rfl⟩
          exact absurd (hs.pid_lt _ hmem) (lt_irrefl _)
      have hreg : mapGet (s.inflight ++ [(s.nextPid, normKey (language.getD ""))])
          s.nextPid = some (normKey (language.getD "")) := by
        rw [mapGet_append_none _ _ _ hfresh]
        simp [mapGet]
      refine ⟨?_, ?_, ?_, ?_, ?_, ?_, ?_, ?_, ?_⟩
      · exact mapSet_keys_nodup _ _ _ hs.cache_nodup
      · rw [List.map_append]
        refine hs.inflight_nodup.append (by simp) ?_
        intro p hp hp'
        simp only [List.map_cons, List.map_nil, List.mem_singleton] at hp'
        subst hp'
        exact absurd (hs.pid_lt _ hp) (lt_irrefl _)
      · intro p hp
        rw [List.map_append] at hp
        rcases List.mem_append.mp hp with hp | hp
        · exact Nat.lt_succ_of_lt (hs.pid_lt _ hp)
        · simp only [List.map_cons, List.map_nil, List.mem_singleton] at hp
          subst hp
          exact Nat.lt_succ_self _
      · intro pid k hg
        rcases hg₀ : mapGet s.inflight pid with _ | k₀
        · rw [mapGet_append_none _ _ _ hg₀] at hg
          simp only [mapGet] at hg
          by_cases hp : s.nextPid = pid
          · rw [if_pos hp] at hg
            injection hg with hg
            subst hg
            rw [mapGet_mapSet]
            simp [hp]
          · rw [if_neg hp] at hg
            exact absurd hg (by simp)
        · rw [mapGet_append_some _ _ _ _ hg₀] at hg
          injection hg with hg
          subst hg
          have hc := hs.inflight_cache pid k₀ hg₀
          have hkne : normKey (language.getD "") ≠ k₀ := by
            intro hh
            rw [hh] at hm
            rw [hm] at hc
            exact absurd hc (by simp)
          rw [mapGet_mapSet, if_neg hkne]
          exact hc
      · intro k pid hc
        rw [mapGet_mapSet] at hc
        by_cases hk : normKey (language.getD "") = k
        · rw [if_pos hk] at hc
          injection hc with hc
          injection hc with hc
          subst hc
          rw [← hk]
          exact hreg
        · rw [if_neg hk] at hc
          have := hs.cache_inflight k pid hc
          exact mapGet_append_some _ _ _ _ this
      · intro k
        rw [List.count_append]
        by_cases hk : normKey (language.getD "") = k
        · subst hk
          have hnotlog : normKey (language.getD "") ∉ s.fetchLog := by
            rw [hs.log_cache, hm]
            simp
          rw [List.count_eq_zero.mpr hnotlog]
          simp [List.count_singleton]
        · have : List.count k [normKey (language.getD "")] = 0 := by
            simp only [List.count_singleton']
            simp [hk]
          rw [this]
          simpa using hs.log_count k
      · intro q
        rw [List.mem_append, mapGet_mapSet]
        by_cases hk : normKey (language.getD "") = q
        · simp [hk]
        · rw [if_neg hk]
          have : ¬ q ∈ [normKey (language.getD "")] := by
            simp
            intro hh
            exact hk hh.symm
          simp only [this, or_false]
          exact hs.log_cache q
      · intro k pid hmem
        simp only [List.mem_append, List.mem_singleton] at hmem
        rcases hmem with hmem | hmem
        · exact mapGet_append_some _ _ _ _ (hs.waiting_inflight k pid hmem)
        · injection hmem with h₁ h₂
          subst h₁
          subst h₂
          exact hreg
      · intro k d hmem
        simp only [List.mem_append, List.mem_singleton] at hmem
        rcases hmem with hmem | hmem
        · have hc := hs.data_cache k d hmem
          have hkne : normKey (language.getD "") ≠ k := by
            intro hh
            rw [hh] at hm
            rw [hm] at hc
            exact absurd hc (by simp)
          rw [mapGet_mapSet, if_neg hkne]
          exact hc
        · exact absurd hmem (by simp)
    · -- cache hit: only the caller list grows
      rcases val with pid | d
      · simp only [hm]
        refine ⟨hs.cache_nodup, hs.inflight_nodup, hs.pid_lt, hs.inflight_cache,
          hs.cache_inflight, hs.log_count, hs.log_cache, ?_, ?_⟩
        · intro k p hmem
          simp only [List.mem_append, List.mem_singleton] at hmem
          rcases hmem with hmem | hmem
          · exact hs.waiting_inflight k p hmem
          · injection hmem with h₁ h₂
            subst h₁
            subst h₂
            exact hs.cache_inflight _ _ hm
        · intro k d hmem
          simp only [List.mem_append, List.mem_singleton] at hmem
          rcases hmem with hmem | hmem
          · exact hs.data_cache k d hmem
          · exact absurd hmem (by simp)
      · simp only [hm]
        refine ⟨hs.cache_nodup, hs.inflight_nodup, hs.pid_lt, hs.inflight_cache,
          hs.cache_inflight, hs.log_count, hs.log_cache, ?_, ?_⟩
        · intro k p hmem
          simp only [List.mem_append, List.mem_singleton] at hmem
          rcases hmem with hmem | hmem
          · exact hs.waiting_inflight k p hmem
          · exact absurd hmem (by simp)
        · intro k d₀ hmem
          simp only [List.mem_append, List.mem_singleton] at hmem
          rcases hmem with hmem | hmem
          · exact hs.data_cache k d₀ hmem
          · injection hmem with h₁ h₂
            subst h₁
            subst h₂
            exact hm

theorem inv_step_fetchOk (s : SKState) (pid : Nat) (d : List Record)
    (hs : Inv s) : Inv (step s (.fetchOk pid d)) := by
  rcases hg : mapGet s.inflight pid with _ | k
  · simpa only [step, hg] using hs
  · have hck : mapGet s.cache k = some (.pending pid) := hs.inflight_cache pid k hg
    simp only [step, hg]
    refine ⟨?_, ?_, ?_, ?_, ?_, ?_, ?_, ?_, ?_⟩
    · exact mapSet_keys_nodup _ _ _ hs.cache_nodup
    · exact mapDelete_keys_nodup _ _ hs.inflight_nodup
    · intro p hp
      exact hs.pid_lt p ((mapDelete_keys_sublist _ _).subset hp)
    · intro q k₀ hq
      by_cases hqp : q = pid
      · subst hqp
        rw [mapGet_mapDelete_self _ _ hs.inflight_nodup] at hq
        exact absurd hq (by simp)
      · rw [mapGet_mapDelete_ne _ _ _ hqp] at hq
        have hc := hs.inflight_cache q k₀ hq
        have hkne : k ≠ k₀ := by
          intro hh
          rw [← hh] at hc
          rw [hck] at hc
          injection hc with hc
          injection hc with hc
          exact hqp hc.symm
        rw [mapGet_mapSet, if_neg hkne]
        exact hc
    · intro k₀ q hq
      rw [mapGet_mapSet] at hq
      by_cases hk : k = k₀
      · rw [if_pos hk] at hq
        injection hq with hq
        exact absurd hq (by simp)
      · rw [if_neg hk] at hq
        have hi := hs.cache_inflight k₀ q hq
        have hqp : q ≠ pid := by
          intro hh
          subst hh
          rw [hg] at hi
          injection hi with hi
          exact hk hi
        rw [mapGet_mapDelete_ne _ _ _ hqp]
        exact hi
    · exact hs.log_count
    · intro q
      rw [mapGet_mapSet]
      by_cases hk : k = q
      · subst hk
        have : k ∈ s.fetchLog := by
          rw [hs.log_cache, hck]
          rfl
        simp [this]
      · rw [if_neg hk]
        exact hs.log_cache q
    · intro k₀ q hmem
      rcases List.mem_map.mp hmem with ⟨c, hc, hfc⟩
      rcases c with _ | ⟨k₁, p⟩ | ⟨k₁, d₁⟩ | k₁
      · exact absurd hfc (by simp [resolveCaller])
      · simp only [resolveCaller] at hfc
        by_cases hp : p = pid
        · rw [if_pos hp] at hfc
          exact absurd hfc (by simp)
        · rw [if_neg hp] at hfc
          injection hfc with h₁ h₂
          rw [← h₂, ← h₁]
          rw [mapGet_mapDelete_ne _ _ _ hp]
          exact hs.waiting_inflight k₁ p hc
      · exact absurd hfc (by simp [resolveCaller])
      · exact absurd hfc (by simp [resolveCaller])
    · intro k₀ d₀ hmem
      rcases List.mem_map.mp hmem with ⟨c, hc, hfc⟩
      rcases c with _ | ⟨k₁, p⟩ | ⟨k₁, d₁⟩ | k₁
      · exact absurd hfc (by simp [resolveCaller])
      · simp only [resolveCaller] at hfc
        by_cases hp : p = pid
        · rw [if_pos hp] at hfc
          injection hfc with h₁ h₂
          rw [← h₁, ← h₂]
          have hw := hs.waiting_inflight k₁ p hc
          rw [hp] at hw
          rw [hg] at hw
          injection hw with hw
          rw [mapGet_mapSet, if_pos hw]
        · rw [if_neg hp] at hfc
          exact absurd hfc (by simp)
      · simp only [resolveCaller] at hfc
        injection hfc with h₁ h₂
        rw [← h₁, ← h₂]
        have hcc := hs.data_cache k₁ d₁ hc
        have hkne : k ≠ k₁ := by
          intro hh
          rw [← hh] at hcc
          rw [hck] at hcc
          exact absurd hcc (by simp)
        rw [mapGet_mapSet, if_neg hkne]
        exact hcc
      · exact absurd hfc (by simp [resolveCaller])

theorem inv_foldl (tr : List Event) : ∀ s : SKState, Inv s →
    (∀ e ∈ tr, benign e = true) → Inv (tr.foldl step s) := by
  induction tr with
  | nil => exact fun s hs _ => hs
  | cons e tr ih =>
    intro s hs hb
    have hbe : benign e = true := hb e (List.mem_cons_self e tr)
    have hbt : ∀ e₀ ∈ tr, benign e₀ = true :=
      fun e₀ h₀ => hb e₀ (List.mem_cons_of_mem e h₀)
    rw [List.foldl_cons]
    refine ih (step s e) ?_ hbt
    match e with
    | .call language => exact inv_step_call s language hs
    | .fetchOk pid d => exact inv_step_fetchOk s pid d hs
    | .fetchFail pid => exact absurd hbe (by simp [benign])
    | .clear => exact absurd hbe (by simp [benign])

theorem inv_run (tr : List Event) (h : FailureFree tr) : Inv (run tr) :=
  inv_foldl tr initState inv_initState h

theorem winv_step (s : SKState) (e : Event) (hs : WInv s) : WInv (step s e) := by
  match e with
  | .call language =>
    by_cases hf : jsFalsyStr language = true
    · simpa only [step, if_pos hf] using ⟨hs.cache_nodup, hs.inflight_nodup, hs.pid_lt⟩
    · simp only [step, if_neg hf]
      rcases hm : mapGet s.cache (normKey (language.getD "")) with _ | val
      · simp only [hm]
        refine ⟨mapSet_keys_nodup _ _ _ hs.cache_nodup, ?_, ?_⟩
        · rw [List.map_append]
          refine hs.inflight_nodup.append (by simp) ?_
          intro p hp hp'
          simp only [List.map_cons, List.map_nil, List.mem_singleton] at hp'
          subst hp'
          exact absurd (hs.pid_lt _ hp) (lt_irrefl _)
        · intro p hp
          rw [List.map_append] at hp
          rcases List.mem_append.mp hp with hp | hp
          · exact Nat.lt_succ_of_lt (hs.pid_lt _ hp)
          · simp only [List.map_cons, List.map_nil, List.mem_singleton] at hp
            subst hp
            exact Nat.lt_succ_self _
      · rcases val with pid | d
        · simpa only [hm] using ⟨hs.cache_nodup, hs.inflight_nodup, hs.pid_lt⟩
        · simpa only [hm] using ⟨hs.cache_nodup, hs.inflight_nodup, hs.pid_lt⟩
  | .fetchOk pid d =>
    rcases hg : mapGet s.inflight pid with _ | k
    · simpa only [step, hg] using hs
    · simp only [step, hg]
      refine ⟨mapSet_keys_nodup _ _ _ hs.cache_nodup,
        mapDelete_keys_nodup _ _ hs.inflight_nodup, ?_⟩
      intro p hp
      exact hs.pid_lt p ((mapDelete_keys_sublist _ _).subset hp)
  | .fetchFail pid =>
    rcases hg : mapGet s.inflight pid with _ | k
    · simpa only [step, hg] using hs
    · simp only [step, hg]
      refine ⟨mapDelete_keys_nodup _ _ hs.cache_nodup,
        mapDelete_keys_nodup _ _ hs.inflight_nodup, ?_⟩
      intro p hp
      exact hs.pid_lt p ((mapDelete_keys_sublist _ _).subset hp)
  | .clear =>
    exact ⟨by simp [step], hs.inflight_nodup, hs.pid_lt⟩

theorem winv_foldl (tr : List Event) : ∀ s : SKState, WInv s → WInv (tr.foldl step s) := by
  induction tr with
  | nil => exact fun s hs => hs
  | cons e tr ih =>
    intro s hs
    rw [List.foldl_cons]
    exact ih (step s e) (winv_step s e hs)

theorem winv_run (tr : List Event) : WInv (run tr) :=
  winv_foldl tr initState (by constructor <;> simp [initState])

section QueryHelpers

variable {α : Type}

theorem jsFind_eq_some (p : α → Bool) (l : List α) (x : α)
    (h : jsFind p l = some x) : x ∈ l ∧ p x = true := by
  induction l with
  | nil => simp [jsFind] at h
  | cons hd tl ih =>
    by_cases hp : p hd
    · simp only [jsFind, if_pos hp] at h
      injection h with h
      subst h
      exact ⟨List.mem_cons_self _ _, hp⟩
    · simp only [jsFind, if_neg hp] at h
      obtain ⟨hmem, hpx⟩ := ih h
      exact ⟨List.mem_cons_of_mem _ hmem, hpx⟩

theorem jsFind_eq_first (p : α → Bool) (pre : List α) (r : α) (post : List α)
    (hr : p r = true) (hpre : ∀ x ∈ pre, p x = false) :
    jsFind p (pre ++ r :: post) = some r := by
  induction pre with
  | nil => simp [jsFind, hr]
  | cons hd tl ih =>
    have hhd : p hd = false := hpre hd (List.mem_cons_self _ _)
    simp only [List.cons_append, jsFind, hhd]
    simp only [Bool.false_eq_true, if_false]
    exact ih fun x hx => hpre x (List.mem_cons_of_mem _ hx)

theorem jsFind_eq_none (p : α → Bool) (l : List α)
    (h : ∀ x ∈ l, p x = false) : jsFind p l = none := by
  induction l with
  | nil => rfl
  | cons hd tl ih =>
    have hhd : p hd = false := h hd (List.mem_cons_self _ _)
    simp only [jsFind, hhd, Bool.false_eq_true, if_false]
    exact ih fun x hx => h x (List.mem_cons_of_mem _ hx)

theorem jsFilter_sublist (p : α → Bool) (l : List α) :
    (jsFilter p l).Sublist l := by
  induction l with
  | nil => simp [jsFilter]
  | cons hd tl ih =>
    by_cases hp : p hd
    · simp only [jsFilter, if_pos hp]
      exact ih.cons₂ hd
    · simp only [jsFilter, if_neg hp]
      exact ih.cons hd

theorem mem_jsFilter (p : α → Bool) (l : List α) (x : α) :
    x ∈ jsFilter p l ↔ x ∈ l ∧ p x = true := by
  induction l with
  | nil => simp [jsFilter]
  | cons hd tl ih =>
    by_cases hp : p hd
    · simp only [jsFilter, if_pos hp, List.mem_cons, ih]
      constructor
      · rintro (h | ⟨h₁, h₂⟩)
        · exact ⟨Or.inl h, h ▸ hp⟩
        · exact ⟨Or.inr h₁, h₂⟩
      · rintro ⟨h₁ | h₁, h₂⟩
        · exact Or.inl h₁
        · exact Or.inr ⟨h₁, h₂⟩
    · simp only [jsFilter, if_neg hp, List.mem_cons, ih]
      constructor
      · rintro ⟨h₁, h₂⟩
        exact ⟨Or.inr h₁, h₂⟩
      · rintro ⟨h₁ | h₁, h₂⟩
        · subst h₁
          exact absurd h₂ hp
        · exact ⟨h₁, h₂⟩

theorem jsFilter_congr (p q : α → Bool) (l : List α)
    (h : ∀ x ∈ l, p x = q x) : jsFilter p l = jsFilter q l := by
  induction l with
  | nil => rfl
  | cons hd tl ih =>
    have hhd := h hd (List.mem_cons_self _ _)
    have htl := ih fun x hx => h x (List.mem_cons_of_mem _ hx)
    by_cases hp : p hd
    · simp only [jsFilter, if_pos hp, hhd ▸ hp, if_pos, htl]
    · have hq : q hd = false := hhd ▸ (Bool.not_eq_true _).mp hp
      simp only [jsFilter, if_neg hp, hq, Bool.false_eq_true, if_false, htl]

theorem listIncludes_iff (hay needle : List Char) :
    listIncludes hay needle = true ↔ needle <:+: hay := by
  induction hay with
  | nil =>
    simp only [listIncludes, List.isEmpty_iff, List.infix_nil]
  | cons c t ih =>
    simp only [listIncludes, Bool.or_eq_true, List.isPrefixOf_iff_prefix, ih,
      List.infix_cons_iff]

theorem strIncludes_iff (hay needle : String) :
    strIncludes hay needle = true ↔ needle.data <:+: hay.data :=
  listIncludes_iff hay.data needle.data

theorem jsToLower_eq_empty_iff (s : String) : jsToLower s = "" ↔ s = "" := by
  constructor
  · intro h
    have hd : (jsToLower s).data = [] := by rw [h]
    simp only [jsToLower, List.map_eq_nil_iff] at hd
    cases s
    simp_all
  · intro h
    subst h
    rfl

end QueryHelpers

/-- C1: single-flight deduplication and memoization — along any failure-free
window (a trace with no fetch failure and no cache clear), at most one
outbound fetch is issued per normalized key no matter how many `loadAll`
calls are made, and all callers that resolve for a key resolve to the same
partition data. -/
theorem C1_single_flight (tr : List Event) (h : FailureFree tr) :
    (∀ k, (run tr).fetchLog.count k ≤ 1) ∧
    (∀ k d₁ d₂, Caller.gotData k d₁ ∈ (run tr).callers →
      Caller.gotData k d₂ ∈ (run tr).callers → d₁ = d₂) := by
  have hi := inv_run tr h
  refine ⟨hi.log_count, fun k d₁ d₂ h₁ h₂ => ?_⟩
  have e₁ := hi.data_cache k d₁ h₁
  have e₂ := hi.data_cache k d₂ h₂
  rw [e₁] at e₂
  exact CacheVal.resolved.inj (Option.some.inj e₂)

theorem C1_single_flight_witness :
    FailureFree [Event.call (some "English "), Event.call (some "english"),
      Event.fetchOk 0 demoQuran] ∧
    (run [Event.call (some "English "), Event.call (some "english"),
      Event.fetchOk 0 demoQuran]).fetchLog.count "english" ≤ 1 :=
  ⟨by decide, (C1_single_flight _ (by decide)).1 "english"⟩

/-- C7: key-normalization coalescing — two non-empty language strings that
agree after trimming surrounding whitespace and lowercasing address the same
cache entry: the second `loadAll` joins the fetch started by the first (only
one fetch is logged) and both callers resolve to the same partition. -/
theorem C7_key_coalescing (l₁ l₂ : String) (d : List Record)
    (h₁ : l₁ ≠ "") (h₂ : l₂ ≠ "")
    (h : jsToLower (jsTrim l₁) = jsToLower (jsTrim l₂)) :
    (run [.call (some l₁), .call (some l₂), .fetchOk 0 d]).fetchLog
      = [normKey l₁] ∧
    (run [.call (some l₁), .call (some l₂), .fetchOk 0 d]).callers
      = [.gotData (normKey l₁) d, .gotData (normKey l₁) d] := by
  have hb₁ : (l₁ == "") = false := by simp [h₁]
  have hb₂ : (l₂ == "") = false := by simp [h₂]
  have hk : normKey l₂ = normKey l₁ := by
    rw [normKey, normKey, h]
  constructor <;>
    simp [run, step, initState, jsFalsyStr, hb₁, hb₂, hk, mapGet, mapSet,
      mapDelete, resolveCaller]

theorem C7_key_coalescing_witness :
    ("English " ≠ "") ∧
    (run [.call (some "English "), .call (some "english"),
      .fetchOk 0 demoQuran]).fetchLog = [normKey "English "] :=
  ⟨by decide, (C7_key_coalescing "English " "english" demoQuran (by decide)
    (by decide) (by decide)).1⟩

/-- C8: input validation before any retrieval — `loadAll` with an absent or
empty language argument records the invalid-input failure and leaves the
whole state (cache, fetch log, in-flight set) untouched, and `searchById`
with an empty-string or null id fails with the invalid-input error without
ever reaching the `loadAll` call. -/
theorem C8_validation_before_retrieval (s : SKState) (quran : List Record)
    (language : String) :
    step s (.call none) = { s with callers := s.callers ++ [.failedInput] } ∧
    step s (.call (some "")) = { s with callers := s.callers ++ [.failedInput] } ∧
    searchByIdRun quran language (.str "") =
      ⟨.error (.invalidInput "Surah ID is required."), false⟩ ∧
    searchByIdRun quran language .null =
      ⟨.error (.invalidInput "Surah ID is required."), false⟩ := by
  refine ⟨rfl, ?_, ?_, rfl⟩
  · have : jsFalsyStr (some "") = true := by decide
    simp [step, this]
  · have : jsFalsy (.str "") = true := by decide
    simp [searchByIdRun, this]

/-- C9: the numeric id 0 is falsy, so `searchById` rejects it with the
required-id error before any retrieval, even though the interface accepts
number-typed ids. -/
theorem C9_zero_id_rejected (quran : List Record) (language : String) :
    jsFalsy (.num 0) = true ∧
    searchByIdRun quran language (.num 0) =
      ⟨.error (.invalidInput "Surah ID is required."), false⟩ := by
  refine ⟨by decide, ?_⟩
  have : jsFalsy (.num 0) = true := by decide
  simp [searchByIdRun, this]

/-- C10: a whitespace-only language argument passes the emptiness check
(which runs before normalization), normalizes to the empty key, and proceeds
to register a pending cache entry and issue a fetch for that empty key
instead of failing. -/
theorem C10_whitespace_language (s : SKState)
    (h : mapGet s.cache "" = none) :
    (step s (.call (some "   "))).callers
      = s.callers ++ [.waiting "" s.nextPid] ∧
    (step s (.call (some "   "))).fetchLog = s.fetchLog ++ [""] ∧
    mapGet (step s (.call (some "   "))).cache ""
      = some (.pending s.nextPid) := by
  have hfalsy : jsFalsyStr (some "   ") = false := by decide
  have hkey : normKey (Option.getD (some "   ") "") = "" := by decide
  simp only [step, hfalsy, Bool.false_eq_true, if_false, Option.getD_some]
  rw [show normKey "   " = "" from hkey]
  simp only [h]
  exact ⟨by trivial, by trivial, by rw [mapGet_mapSet, if_pos rfl]⟩

theorem C10_whitespace_language_witness :
    mapGet initState.cache "" = none ∧
    (step initState (.call (some "   "))).fetchLog = initState.fetchLog ++ [""] :=
  ⟨by decide, (C10_whitespace_language initState (by decide)).2.1⟩

/-- C2: failure eviction — in any reachable state, when the in-flight fetch
`pid` for key `k` fails, the cache afterwards holds no entry for `k`, every
caller joined to that fetch receives the retrieval error, and an immediately
subsequent `loadAll` whose argument normalizes to `k` issues a fresh fetch. -/
theorem C2_failure_eviction (tr : List Event) (pid : Nat) (k l : String)
    (hg : mapGet (run tr).inflight pid = some k)
    (hl : l ≠ "") (hnorm : normKey l = k) :
    mapGet (step (run tr) (.fetchFail pid)).cache k = none ∧
    (∀ k₀, Caller.waiting k₀ pid ∈ (run tr).callers →
      Caller.gotError k₀ ∈ (step (run tr) (.fetchFail pid)).callers) ∧
    (step (step (run tr) (.fetchFail pid)) (.call (some l))).fetchLog
      = (run tr).fetchLog ++ [k] := by
  have hw := winv_run tr
  have hcache : mapGet (step (run tr) (.fetchFail pid)).cache k = none := by
    simp only [step, hg]
    exact mapGet_mapDelete_self _ _ hw.cache_nodup
  refine ⟨hcache, ?_, ?_⟩
  · intro k₀ hmem
    simp only [step, hg]
    refine List.mem_map.mpr ⟨.waiting k₀ pid, hmem, ?_⟩
    simp [rejectCaller]
  · have hb : (l == "") = false := by simp [hl]
    have hfl : (step (run tr) (.fetchFail pid)).fetchLog = (run tr).fetchLog := by
      simp only [step, hg]
    have hgen : ∀ s₁ : SKState, mapGet s₁.cache k = none →
        (step s₁ (.call (some l))).fetchLog = s₁.fetchLog ++ [k] := by
      intro s₁ hc
      simp only [step, jsFalsyStr, hb, Bool.false_eq_true, if_false,
        Option.getD_some, hnorm, hc]
    rw [hgen _ hcache, hfl]

theorem C2_failure_eviction_witness :
    mapGet (run [Event.call (some "en")]).inflight 0 = some "en" ∧
    mapGet (step (run [Event.call (some "en")]) (.fetchFail 0)).cache "en"
      = none :=
  ⟨by decide,
    (C2_failure_eviction [Event.call (some "en")] 0 "en" "en" (by decide)
      (by decide) (by decide)).1⟩

/-- C3 counterexample: start a fetch for "english", run `clearCache()` while
it is in flight, then let the fetch succeed — the claim says the result is
not inserted into the cache after the clear, but the final cache does hold a
resolved entry for "english". -/
theorem C3_counterexample :
    mapGet (run [.call (some "english"), .clear,
      .fetchOk 0 demoQuran]).cache "english" ≠ none := by decide

/-- C3 (amended): `clearCache` synchronously removes every entry regardless
of pending/resolved state, but an in-flight retrieval that succeeds after the
clear does insert its result into the cache — the code does not special-case
this race (the success continuation sets the cache unconditionally). -/
theorem C3_clear_then_inflight_success (s : SKState) (pid : Nat) (k : String)
    (d : List Record) (hg : mapGet s.inflight pid = some k) :
    (step s .clear).cache = [] ∧
    mapGet (step (step s .clear) (.fetchOk pid d)).cache k
      = some (.resolved d) := by
  refine ⟨rfl, ?_⟩
  have hinfl : (step s .clear).inflight = s.inflight := rfl
  have hc : (step s .clear).cache = [] := rfl
  simp only [step, hinfl, hg, hc]
  rw [show mapSet ([] : List (String × CacheVal)) k (.resolved d)
      = [(k, .resolved d)] from rfl]
  rw [mapGet, if_pos rfl]

theorem C3_clear_then_inflight_success_witness :
    mapGet (run [Event.call (some "en")]).inflight 0 = some "en" ∧
    mapGet (step (step (run [Event.call (some "en")]) .clear)
      (.fetchOk 0 demoQuran)).cache "en" = some (.resolved demoQuran) :=
  ⟨by decide,
    (C3_clear_then_inflight_success (run [Event.call (some "en")]) 0 "en"
      demoQuran (by decide)).2⟩

/-- C4: `searchById` on a resolved partition with a non-falsy id returns the
first record whose `id` field equals `String(id).trim()` by exact,
case-sensitive string equality (so distinct strings such as "2" and "02"
never match each other), and fails with the not-found error exactly when no
record carries that normalized id. -/
theorem C4_search_by_id (quran : List Record) (language : String)
    (id : JSValue) (h : jsFalsy id = false) :
    (∀ r, (searchByIdRun quran language id).val = .ok r →
      r ∈ quran ∧ r.id = jsTrim (jsToString id)) ∧
    (∀ pre r post, quran = pre ++ r :: post →
      r.id = jsTrim (jsToString id) →
      (∀ x ∈ pre, x.id ≠ jsTrim (jsToString id)) →
      (searchByIdRun quran language id).val = .ok r) ∧
    ((∀ r ∈ quran, r.id ≠ jsTrim (jsToString id)) →
      (searchByIdRun quran language id).val
        = .error (.notFound (jsToString id) language)) := by
  have hrun : searchByIdRun quran language id =
      match jsFind (fun s => s.id == jsTrim (jsToString id)) quran with
      | some s => ⟨.ok s, true⟩
      | none => ⟨.error (.notFound (jsToString id) language), true⟩ := by
    simp only [searchByIdRun, h, Bool.false_eq_true, if_false]
  refine ⟨?_, ?_, ?_⟩
  · intro r hr
    rw [hrun] at hr
    rcases hf : jsFind (fun s => s.id == jsTrim (jsToString id)) quran with _ | s
    · rw [hf] at hr
      exact absurd hr (by simp)
    · rw [hf] at hr
      have hsr : s = r := by
        have : Except.ok (ε := SKError) s = Except.ok r := hr
        injection this
      obtain ⟨hmem, hp⟩ := jsFind_eq_some _ _ _ hf
      rw [← hsr]
      exact ⟨hmem, by simpa using hp⟩
  · intro pre r post hq hr hpre
    rw [hrun]
    have hfind : jsFind (fun s => s.id == jsTrim (jsToString id)) quran
        = some r := by
      rw [hq]
      refine jsFind_eq_first _ _ _ _ ?_ ?_
      · simp [hr]
      · intro x hx
        exact beq_false_of_ne (hpre x hx)
    rw [hfind]
  · intro hnone
    rw [hrun]
    have hfind : jsFind (fun s => s.id == jsTrim (jsToString id)) quran
        = none := by
      refine jsFind_eq_none _ _ ?_
      intro x hx
      exact beq_false_of_ne (hnone x hx)
    rw [hfind]

theorem C4_search_by_id_witness :
    jsFalsy (JSValue.str "36") = false ∧
    (searchByIdRun demoQuran "english" (.str "36")).val = .ok yaSin ∧
    (searchByIdRun demoQuran "english" (.str "99")).val
      = .error (.notFound "99" "english") ∧
    (searchByIdRun [⟨"02", "Heifer", "286", "body"⟩] "english" (.str "2")).val
      = .error (.notFound "2" "english") :=
  ⟨by decide,
    (C4_search_by_id demoQuran "english" (.str "36") (by decide)).2.1
      [opener] yaSin [mankind] rfl (by decide) (by decide),
    (C4_search_by_id demoQuran "english" (.str "99") (by decide)).2.2
      (by decide),
    (C4_search_by_id [⟨"02", "Heifer", "286", "body"⟩] "english" (.str "2")
      (by decide)).2.2 (by decide)⟩

/-- C5: `searchByIds` returns the empty sequence without touching the cache
when the ids collection is absent or empty; otherwise it touches the cache
and returns exactly the records whose id is among the trimmed string forms of
the inputs, as a subsequence of the partition (original relative order, not
input order); the result depends only on which normalized ids occur, so
duplicate inputs collapse. -/
theorem C5_search_by_ids (quran : List Record) (ids : List JSValue)
    (h : ids ≠ []) :
    searchByIdsRun quran none = ⟨[], false⟩ ∧
    searchByIdsRun quran (some []) = ⟨[], false⟩ ∧
    (searchByIdsRun quran (some ids)).touchedCache = true ∧
    ((searchByIdsRun quran (some ids)).val).Sublist quran ∧
    (∀ r, r ∈ (searchByIdsRun quran (some ids)).val ↔
      r ∈ quran ∧ r.id ∈ ids.map fun i => jsTrim (jsToString i)) ∧
    (∀ ids₂ : List JSValue, ids₂ ≠ [] →
      (∀ i ∈ ids, jsTrim (jsToString i)
        ∈ ids₂.map fun j => jsTrim (jsToString j)) →
      (∀ i ∈ ids₂, jsTrim (jsToString i)
        ∈ ids.map fun j => jsTrim (jsToString j)) →
      searchByIdsRun quran (some ids₂) = searchByIdsRun quran (some ids)) := by
  have hlen : ¬ ids.length = 0 := by simpa [List.length_eq_zero] using h
  have hrun : searchByIdsRun quran (some ids) =
      ⟨jsFilter (fun s =>
        (ids.map fun i => jsTrim (jsToString i)).contains s.id) quran, true⟩ := by
    simp only [searchByIdsRun, if_neg hlen]
  have hmemiff : ∀ (l : List JSValue) (k : String),
      (l.map fun i => jsTrim (jsToString i)).contains k = true ↔
        k ∈ l.map fun i => jsTrim (jsToString i) := by
    intro l k
    exact List.elem_iff
  refine ⟨rfl, rfl, by rw [hrun], by rw [hrun]; exact jsFilter_sublist _ _,
    ?_, ?_⟩
  · intro r
    rw [hrun]
    rw [show (Traced.mk (jsFilter (fun s =>
        (ids.map fun i => jsTrim (jsToString i)).contains s.id) quran)
        true).val = jsFilter (fun s =>
        (ids.map fun i => jsTrim (jsToString i)).contains s.id) quran
      from rfl]
    rw [mem_jsFilter]
    exact and_congr_right fun _ => hmemiff ids r.id
  · intro ids₂ h₂ hsub₁ hsub₂
    have hlen₂ : ¬ ids₂.length = 0 := by simpa [List.length_eq_zero] using h₂
    have hrun₂ : searchByIdsRun quran (some ids₂) =
        ⟨jsFilter (fun s =>
          (ids₂.map fun i => jsTrim (jsToString i)).contains s.id) quran,
          true⟩ := by
      simp only [searchByIdsRun, if_neg hlen₂]
    rw [hrun, hrun₂]
    have hfe : jsFilter (fun s =>
        (ids₂.map fun i => jsTrim (jsToString i)).contains s.id) quran
        = jsFilter (fun s =>
        (ids.map fun i => jsTrim (jsToString i)).contains s.id) quran := by
      apply jsFilter_congr
      intro x _
      apply Bool.coe_iff_coe.mp
      rw [hmemiff, hmemiff]
      constructor
      · intro hx
        rcases List.mem_map.mp hx with ⟨i, hi, hni⟩
        rw [← hni]
        exact hsub₂ i hi
      · intro hx
        rcases List.mem_map.mp hx with ⟨i, hi, hni⟩
        rw [← hni]
        exact hsub₁ i hi
    rw [hfe]

theorem C5_search_by_ids_witness :
    ([JSValue.str "36", .str "1", .str "36"] ≠ ([] : List JSValue)) ∧
    searchByIdsRun demoQuran (some [.str "36", .str "1"])
      = searchByIdsRun demoQuran (some [.str "36", .str "1", .str "36"]) ∧
    (searchByIdsRun demoQuran
      (some [.str "36", .str "1", .str "36"])).val = [opener, yaSin] :=
  ⟨by decide,
    (C5_search_by_ids demoQuran [.str "36", .str "1", .str "36"]
      (by decide)).2.2.2.2.2 [.str "36", .str "1"] (by decide) (by decide)
      (by decide),
    by decide⟩

/-- C6: `searchByName` and `searchByPhrase` return the empty sequence with no
cache access when the keyword/phrase is empty or absent; otherwise each
returns, as a subsequence of the partition (partition order), exactly the
records whose lower-cased title (respectively body) contains the lower-cased
query as a contiguous substring, and two queries equal up to letter case
produce identical results. -/
theorem C6_substring_search (quran : List Record) (kw₁ kw₂ : String)
    (h₁ : kw₁ ≠ "") (h : jsToLower kw₁ = jsToLower kw₂) :
    searchByNameRun quran none = ⟨[], false⟩ ∧
    searchByNameRun quran (some "") = ⟨[], false⟩ ∧
    searchByPhraseRun quran none = ⟨[], false⟩ ∧
    searchByPhraseRun quran (some "") = ⟨[], false⟩ ∧
    ((searchByNameRun quran (some kw₁)).val).Sublist quran ∧
    ((searchByPhraseRun quran (some kw₁)).val).Sublist quran ∧
    (∀ r, r ∈ (searchByNameRun quran (some kw₁)).val ↔
      r ∈ quran ∧ (jsToLower kw₁).data <:+: (jsToLower r.surah).data) ∧
    (∀ r, r ∈ (searchByPhraseRun quran (some kw₁)).val ↔
      r ∈ quran ∧ (jsToLower kw₁).data <:+: (jsToLower r.text).data) ∧
    searchByNameRun quran (some kw₂) = searchByNameRun quran (some kw₁) ∧
    searchByPhraseRun quran (some kw₂) = searchByPhraseRun quran (some kw₁) := by
  have h₂ : kw₂ ≠ "" := by
    intro hh
    rw [hh] at h
    have : jsToLower kw₁ = "" := h
    exact h₁ ((jsToLower_eq_empty_iff kw₁).mp this)
  have hb₁ : jsFalsyStr (some kw₁) = false := beq_false_of_ne h₁
  have hb₂ : jsFalsyStr (some kw₂) = false := beq_false_of_ne h₂
  have hrunN : ∀ kw : String, jsFalsyStr (some kw) = false →
      searchByNameRun quran (some kw) =
      ⟨jsFilter (fun s => strIncludes (jsToLower s.surah) (jsToLower kw))
        quran, true⟩ := by
    intro kw hb
    simp only [searchByNameRun, hb, Bool.false_eq_true, if_false,
      Option.getD_some]
  have hrunP : ∀ kw : String, jsFalsyStr (some kw) = false →
      searchByPhraseRun quran (some kw) =
      ⟨jsFilter (fun s => strIncludes (jsToLower s.text) (jsToLower kw))
        quran, true⟩ := by
    intro kw hb
    simp only [searchByPhraseRun, hb, Bool.false_eq_true, if_false,
      Option.getD_some]
  refine ⟨rfl, rfl, rfl, rfl, ?_, ?_, ?_, ?_, ?_, ?_⟩
  · rw [hrunN kw₁ hb₁]
    exact jsFilter_sublist _ _
  · rw [hrunP kw₁ hb₁]
    exact jsFilter_sublist _ _
  · intro r
    rw [hrunN kw₁ hb₁]
    rw [show (Traced.mk (jsFilter (fun s =>
        strIncludes (jsToLower s.surah) (jsToLower kw₁)) quran) true).val
      = jsFilter (fun s => strIncludes (jsToLower s.surah) (jsToLower kw₁))
        quran from rfl]
    rw [mem_jsFilter]
    exact and_congr_right fun _ => strIncludes_iff _ _
  · intro r
    rw [hrunP kw₁ hb₁]
    rw [show (Traced.mk (jsFilter (fun s =>
        strIncludes (jsToLower s.text) (jsToLower kw₁)) quran) true).val
      = jsFilter (fun s => strIncludes (jsToLower s.text) (jsToLower kw₁))
        quran from rfl]
    rw [mem_jsFilter]
    exact and_congr_right fun _ => strIncludes_iff _ _
  · rw [hrunN kw₁ hb₁, hrunN kw₂ hb₂, h]
  · rw [hrunP kw₁ hb₁, hrunP kw₂ hb₂, h]

theorem C6_substring_search_witness :
    ("MANKIND" ≠ "") ∧ jsToLower "MANKIND" = jsToLower "mankind" ∧
    searchByNameRun demoQuran none = ⟨[], false⟩ ∧
    searchByNameRun demoQuran (some "mankind")
      = searchByNameRun demoQuran (some "MANKIND") ∧
    (searchByNameRun demoQuran (some "MANKIND")).val = [mankind] :=
  ⟨by decide, by decide,
    (C6_substring_search demoQuran "MANKIND" "mankind" (by decide)
      (by decide)).1,
    (C6_substring_search demoQuran "MANKIND" "mankind" (by decide)
      (by decide)).2.2.2.2.2.2.2.2.1,
    by decide⟩

end SurahKit
